import Mathlib

/-!
# Verification of the sfw-installer download-and-publish pipeline

A shallow embedding of the installer's core logic (SocketDev/sfw-installer):

* `src/src/resumable.ts` — the resumable, lock-coordinated downloader
  (`eagerAcquireLockAndDownload`, `downloadWithResume`, `saveToDisk`,
  `checkIntegrity`, `getSizeOnDisk`);
* `src/src/httpUtils.ts` — the redirect-following HTTP fetcher (`httpsGet`,
  `httpsGetWithRange`), the digest parsing and publish step of
  `downloadAndVerifyReleaseSync` / `trySymlinkLatest`, the scheduler
  `ensureLatestBinary`, and the deadline check `shouldCheckForUpdate`.

File contents are lists of bytes (`List Nat`); the cryptographic digest is an
abstract parameter `hashFn : List Nat → String` (the TS code incrementally
feeds the whole file, from offset 0, into one `crypto.Hash`, which equals
hashing the full content).  Side effects are made observable through explicit
event traces so that ordering properties (verify-before-rename,
repoint-versus-delete, blocking-versus-background) can be stated.
-/

namespace SfwInstaller

abbrev Byte := Nat

/-! ## Resumable downloader (src/src/resumable.ts) -/

/-- One observable step of `eagerAcquireLockAndDownload`. -/
inductive DlEv where
  /-- `fs.openSync(pendingDownloadPath, 'w+')` -/
  | openPending
  /-- `httpsGetWithRange(url, bytesAlreadyDownloaded)` with the given offset -/
  | range (off : Nat)
  /-- `fs.writeSync(fd, chunk, 0, chunk.length, currentChunkOffset)` -/
  | write (off len : Nat)
  /-- outcome of `checkIntegrity` -/
  | verify (ok : Bool)
  /-- `fs.unlinkSync(pendingDownloadPath)` -/
  | unlinkPending
  /-- `fs.renameSync(pendingDownloadPath, destination)` -/
  | rename
deriving DecidableEq

/-- Terminal outcome of a download call. -/
inductive DlOutcome where
  | ok
  /-- rejected because the lock-compromise flag was observed -/
  | aborted
  /-- `throw new Error('Downloaded file integrity check failed')` -/
  | integrityError
deriving DecidableEq

/-- `fs.writeSync(fd, chunk, 0, chunk.length, off)`: overwrite the byte range
`[off, off + chunk.length)` of `file`, zero-filling any gap below `off`. -/
def writeAt (file : List Byte) (off : Nat) (chunk : List Byte) : List Byte :=
  file.take off ++ List.replicate (off - file.length) 0 ++ chunk
    ++ file.drop (off + chunk.length)

/-- Whether the shared `aborted` flag reads true at stream event index `k`
(the flag is set once by the lock-compromise handler and never cleared, so it
is modelled by the index `abortedAt` of the first event that observes it). -/
def abortedOn (abortedAt : Option Nat) (k : Nat) : Bool :=
  match abortedAt with
  | none => false
  | some a => a ≤ k

/-- `saveToDisk` (resumable.ts lines 25-52): consume the response chunks in
order; each `'data'` handler first re-checks `aborted()` and rejects, else
writes the chunk at the current absolute offset and advances it; the `'end'`
handler re-checks `aborted()` once more.  Returns final file content, whether
the promise resolved, and the trace of write events. -/
def saveToDisk (file : List Byte) (off : Nat) (chunks : List (List Byte))
    (k : Nat) (abortedAt : Option Nat) : List Byte × Bool × List DlEv :=
  match chunks with
  | [] => (file, !abortedOn abortedAt k, [])
  | c :: rest =>
    if abortedOn abortedAt k then (file, false, [])
    else
      let r := saveToDisk (writeAt file off c) (off + c.length) rest (k + 1) abortedAt
      (r.1, r.2.1, DlEv.write off c.length :: r.2.2)

/-- `eagerAcquireLockAndDownload` (resumable.ts lines 85-124) together with
`downloadWithResume` (54-75), `checkIntegrity` (10-23) and `getSizeOnDisk`
(77-83).

* `pending0` / `dest0`: contents of `destination + '.dl'` / `destination`
  before the call (`none` = file absent).
* `serve off` is the chunk list of the range response for `Range: bytes=off-`
  (the response is assumed 2xx; statuses are modelled in the HTTP section).
* `abortedAt` models the lock-compromise cancellation signal.

`fs.openSync(path, 'w+')` opens the pending file for read/write, creating it
if absent and truncating an existing one to length 0, so the file handle
starts on empty content whatever `pending0` was; `getSizeOnDisk` then measures
that (truncated) size.  On integrity mismatch the pending file is unlinked and
the call throws; on success the pending file is renamed onto `destination`
after the lock release, which is the only write to `destination`. -/
def eagerAcquireLockAndDownload (hashFn : List Byte → String) (expectedHex : String)
    (pending0 : Option (List Byte)) (dest0 : Option (List Byte))
    (serve : Nat → List (List Byte)) (abortedAt : Option Nat) :
    Option (List Byte) × Option (List Byte) × DlOutcome × List DlEv :=
  let file0 : List Byte := []                         -- 'w+': create or truncate
  let bytesAlreadyDownloaded := file0.length          -- getSizeOnDisk(fd)
  let s := saveToDisk file0 bytesAlreadyDownloaded
    (serve bytesAlreadyDownloaded) 0 abortedAt
  let tr0 := DlEv.openPending :: DlEv.range bytesAlreadyDownloaded :: s.2.2
  if s.2.1 then
    if hashFn s.1 = expectedHex then
      (none, some s.1, DlOutcome.ok, tr0 ++ [DlEv.verify true, DlEv.rename])
    else
      (none, dest0, DlOutcome.integrityError,
        tr0 ++ [DlEv.verify false, DlEv.unlinkPending])
  else
    (some s.1, dest0, DlOutcome.aborted, tr0)

/-- Count of `DlEv.write` events in a trace. -/
def countWrites (tr : List DlEv) : Nat :=
  (tr.filter fun e => match e with | DlEv.write _ _ => true | _ => false).length

/-- A concrete digest used to instantiate the abstract `hashFn` in closed
evaluations: the decimal length of the content. -/
def hashLen (l : List Byte) : String := Nat.repr l.length

/-- A range server holding `payload`, answering `Range: bytes=r-` with one
chunk `payload.drop r`. -/
def serveFull (payload : List Byte) : Nat → List (List Byte) :=
  fun r => [payload.drop r]

/-- A range server answering every request with the two chunks `[1,2]`,`[3,4]`
(used to exercise mid-stream cancellation). -/
def serveTwo : Nat → List (List Byte) := fun _ => [[1, 2], [3, 4]]

/-! ## HTTP fetcher (src/src/httpUtils.ts lines 11-51) -/

/-- One HTTP response as observed by the `https.get` callback. -/
structure Resp where
  status : Option Nat
  location : Option String
deriving DecidableEq

/-- Result of `httpsGet`: the promise resolves with the final response's
status, or rejects. -/
inductive HttpResult where
  | success (status : Nat)
  | failure
deriving DecidableEq

/-- `httpsGet` (httpUtils.ts lines 11-39) over a script of responses: the
n-th element answers the n-th request of the redirect chain.  An exhausted
script stands for a transport-level `'error'` event.  `maxRedirects` defaults
to 5 in the source. -/
def httpsGet : List Resp → Nat → HttpResult
  | [], _ => HttpResult.failure
  | r :: rest, maxRedirects =>
    match r.status with
    | none => HttpResult.failure
    | some statusCode =>
      if 300 ≤ statusCode ∧ statusCode < 400 ∧ r.location.isSome
          ∧ 0 < maxRedirects then
        httpsGet rest (maxRedirects - 1)
      else if statusCode < 200 ∨ 300 ≤ statusCode then HttpResult.failure
      else HttpResult.success statusCode

/-- `httpsGetWithRange` (httpUtils.ts lines 41-51): same fetch, plus a
`Range: bytes=<startByte>-` header; returns the header value it sent together
with the fetch result. -/
def httpsGetWithRange (responses : List Resp) (startByte : Nat)
    (maxRedirects : Nat) : String × HttpResult :=
  ("bytes=" ++ Nat.repr startByte ++ "-", httpsGet responses maxRedirects)

/-- A response that `httpsGet` would follow: a 3xx status carrying a
`Location` header. -/
def isRedirect (r : Resp) : Bool :=
  match r.status with
  | none => false
  | some s => decide (300 ≤ s) && decide (s < 400) && r.location.isSome

/-- Length of the leading run of followable redirect responses. -/
def chainLen (rs : List Resp) : Nat := (rs.takeWhile isRedirect).length

/-- Failure condition of `httpsGet` stated independently of its recursion:
the redirect limit is exceeded, a transport-level error occurs (script
exhausted or a response without status code), or the terminal response's
status lies outside 2xx — in particular a redirect status without a
`Location` header is terminal and fails. -/
def codeFails (rs : List Resp) (n : Nat) : Bool :=
  if n < chainLen rs then true
  else
    match rs[chainLen rs]? with
    | none => true
    | some r =>
      match r.status with
      | none => true
      | some s => decide (s < 200) || decide (300 ≤ s)

/-- The failure condition exactly as claimed: limit exceeded, transport-level
error, or terminal status outside 2xx/3xx. -/
def claimFails (rs : List Resp) (n : Nat) : Bool :=
  if n < chainLen rs then true
  else
    match rs[chainLen rs]? with
    | none => true
    | some r =>
      match r.status with
      | none => true
      | some s => decide (s < 200) || decide (400 ≤ s)

/-! ## Digest parsing and publish step
(src/src/httpUtils.ts lines 156-204, `downloadAndVerifyReleaseSync` and
`trySymlinkLatest`).  Strings are handled as `List Char` so that
`digest.trim().toLowerCase().split(/:/)` can be reasoned about; `Char.toLower`
and `Char.isWhitespace` are the core functions matching the ASCII behaviour of
the JavaScript operations. -/

/-- `String.prototype.trim`: strip leading and trailing whitespace. -/
def trimL (l : List Char) : List Char :=
  ((l.dropWhile Char.isWhitespace).reverse.dropWhile Char.isWhitespace).reverse

/-- `String.prototype.toLowerCase` (ASCII). -/
def toLowerL (l : List Char) : List Char := l.map Char.toLower

/-- `String.prototype.split` with a single-character separator:
`"".split(':') = ['']`, and every separator occurrence opens a new field. -/
def splitSep (sep : Char) : List Char → List (List Char)
  | [] => [[]]
  | c :: cs =>
    let r := splitSep sep cs
    if c = sep then [] :: r
    else
      match r with
      | h :: t => (c :: h) :: t
      | [] => [[c]]

/-- Inverse of `splitSep`: interleave the separator back between the fields. -/
def joinSep (sep : Char) : List (List Char) → List Char
  | [] => []
  | [x] => x
  | x :: y :: t => x ++ sep :: joinSep sep (y :: t)

/-- The digest-parsing step of `downloadAndVerifyReleaseSync` (httpUtils.ts
lines 188-191): `const [algo, hex] = binUrl.digest.trim().toLowerCase()
.split(/:/); if (!algo || !hex) throw new Error('Invalid digest...')`.
An absent or empty component (JS `undefined` or `''`, both falsy) fails. -/
def parseDigest (digest : List Char) : Option (List Char × List Char) :=
  match splitSep ':' (toLowerL (trimL digest)) with
  | algo :: hex :: _ =>
    if algo = [] ∨ hex = [] then none else some (algo, hex)
  | _ => none

/-- Observable steps of `downloadAndVerifyReleaseSync` relevant to digest
validation: the network download happens only after the digest parses. -/
inductive DvEv where
  /-- `fs.mkdirSync(cacheDir, { recursive: true })` -/
  | mkdirCache
  /-- `eagerAcquireLockAndDownload(...)`: the network fetch -/
  | netDownload
  /-- `trySymlinkLatest(assetPath)` -/
  | publish
deriving DecidableEq

/-- `downloadAndVerifyReleaseSync` (httpUtils.ts lines 170-204) reduced to
the control decisions the digest claims are about: whether the asset record
was found, whether its digest parses, and whether the release's binary is
already finalized on disk.  Returns success together with the event trace. -/
def downloadAndVerifyRelease (assetFound : Bool) (digest : List Char)
    (destExists : Bool) : Bool × List DvEv :=
  let tr0 := [DvEv.mkdirCache]
  if !assetFound then (false, tr0)
  else
    match parseDigest digest with
    | none => (false, tr0)
    | some _ =>
      if destExists then (true, tr0)
      else (true, tr0 ++ [DvEv.netDownload, DvEv.publish])

/-- Observable steps of the publish step `trySymlinkLatest`. -/
inductive PubEv where
  /-- `fs.realpathSync(LATEST_SYMLINK_PATH)` (via `swallowError`) -/
  | resolvePrev (prev : Option String)
  /-- `fs.rmSync(path.dirname(previousBin), { recursive: true, force: true })`,
  deleting the directory containing the given previous binary -/
  | removeOldDir (previousBin : String)
  /-- `removeSymlink(LATEST_SYMLINK_PATH)` -/
  | removeLink
  /-- `fs.symlinkSync(assetPath, LATEST_SYMLINK_PATH)` -/
  | repoint (target : String)
deriving DecidableEq

/-- `trySymlinkLatest` (src/src/httpUtils.ts lines 156-168), as the sequence
of filesystem actions it performs: resolve the previous pointer target, then
— if it exists and differs from the new path — delete the previous release's
directory, then remove and re-create the pointer at the new path. -/
def trySymlinkLatest (prevBin : Option String) (assetPath : String) :
    List PubEv :=
  PubEv.resolvePrev prevBin ::
    ((match prevBin with
      | some p => if p ≠ assetPath then [PubEv.removeOldDir p] else []
      | none => []) ++ [PubEv.removeLink, PubEv.repoint assetPath])

/-! ## Update scheduler (src/src/httpUtils.ts lines 206-233) -/

/-- Observable steps of `ensureLatestBinary`, in execution order; `.ret`
marks the moment the function's value is returned to the caller. -/
inductive SchedEv where
  /-- `setNextCheckTimeSync()`: rewrite `next-check` to now + interval -/
  | setNextCheck
  /-- `fetchLatest()`: the release-metadata network request -/
  | fetchLatest
  /-- `downloadAndVerifyReleaseSync(...)`: download + publish attempt -/
  | downloadPublish
  /-- the function returns its value -/
  | ret
deriving DecidableEq

/-- `ensureLatestBinary` (httpUtils.ts lines 206-233).

* `cached`: result of `findValidCachedReleaseSync()`;
* `deadlineReached`: result of `shouldCheckForUpdate()`;
* `fetchOk` / `downloadOk`: whether `fetchLatest()` /
  `downloadAndVerifyReleaseSync(...)` would succeed;
* `newTag`, `newBin`: the entry a successful download would produce.

Returns the `{tag, bin}` value (`none` = the call throws) and the trace.  In
the stale-cache branch the source *awaits* `swallowError(async () => ...)`
before returning, so the fetch/download events precede `.ret` in the trace;
errors of the attempt are discarded and the cached entry is returned. -/
def ensureLatestBinary (cached : Option String)
    (deadlineReached fetchOk downloadOk : Bool) (newTag newBin : String) :
    Option (String × String) × List SchedEv :=
  match cached with
  | none =>
    if fetchOk then
      if downloadOk then
        (some (newTag, newBin),
          [SchedEv.setNextCheck, SchedEv.fetchLatest, SchedEv.downloadPublish,
            SchedEv.ret])
      else
        (none,
          [SchedEv.setNextCheck, SchedEv.fetchLatest, SchedEv.downloadPublish])
    else (none, [SchedEv.setNextCheck, SchedEv.fetchLatest])
  | some bin =>
    if deadlineReached then
      (some ("cached", bin),
        SchedEv.setNextCheck :: SchedEv.fetchLatest ::
          ((if fetchOk then [SchedEv.downloadPublish] else [])
            ++ [SchedEv.ret]))
    else (some ("cached", bin), [SchedEv.ret])

/-! ## Deadline check (src/src/httpUtils.ts lines 113-124) -/

/-- `shouldCheckForUpdate`.

* `readResult`: content of the `next-check` file (`none` = `readFileSync`
  threw: file missing or unreadable, caught by the `catch`);
* `dateParse`: `Date.parse` (`none` = `NaN`);
* `now`: `Date.now()`.

Returns whether an update check is due; every failure path returns `true`. -/
def shouldCheckForUpdate (readResult : Option (List Char))
    (dateParse : List Char → Option Int) (now : Int) : Bool :=
  match readResult with
  | none => true
  | some data =>
    match dateParse (trimL data) with
    | none => true
    | some nextCheck => decide (now > nextCheck)

/-! ## Lemmas about the downloader loop -/

theorem saveToDisk_events (file : List Byte) (off : Nat)
    (chunks : List (List Byte)) (k : Nat) (abortedAt : Option Nat) :
    ∀ e ∈ (saveToDisk file off chunks k abortedAt).2.2,
      ∃ o l, e = DlEv.write o l := by
  induction chunks generalizing file off k with
  | nil => intro e he; simp [saveToDisk] at he
  | cons c rest ih =>
    intro e he
    by_cases h : abortedOn abortedAt k
    · simp [saveToDisk, h] at he
    · simp only [saveToDisk, h, if_neg, Bool.false_eq_true, not_false_iff,
        if_false, List.mem_cons] at he
      rcases he with he | he
      · exact ⟨off, c.length, he⟩
      · exact ih _ _ _ e he

theorem rename_not_in_saveToDisk (file : List Byte) (off : Nat)
    (chunks : List (List Byte)) (k : Nat) (abortedAt : Option Nat) :
    DlEv.rename ∉ (saveToDisk file off chunks k abortedAt).2.2 := by
  intro hmem
  obtain ⟨o, l, he⟩ := saveToDisk_events file off chunks k abortedAt _ hmem
  cases he

theorem unlink_not_in_saveToDisk (file : List Byte) (off : Nat)
    (chunks : List (List Byte)) (k : Nat) (abortedAt : Option Nat) :
    DlEv.unlinkPending ∉ (saveToDisk file off chunks k abortedAt).2.2 := by
  intro hmem
  obtain ⟨o, l, he⟩ := saveToDisk_events file off chunks k abortedAt _ hmem
  cases he

theorem saveToDisk_none_ok (file : List Byte) (off : Nat)
    (chunks : List (List Byte)) (k : Nat) :
    (saveToDisk file off chunks k none).2.1 = true := by
  induction chunks generalizing file off k with
  | nil => simp [saveToDisk, abortedOn]
  | cons c rest ih => simp [saveToDisk, abortedOn, ih]

theorem saveToDisk_abort (chunks : List (List Byte)) (file : List Byte)
    (off j k : Nat) (h : k ≤ j + chunks.length) :
    (saveToDisk file off chunks j (some k)).2.1 = false ∧
      countWrites (saveToDisk file off chunks j (some k)).2.2 = k - j := by
  induction chunks generalizing file off j with
  | nil =>
    have hj : k ≤ j := by simpa using h
    simp [saveToDisk, abortedOn, hj, countWrites]
  | cons c rest ih =>
    by_cases hj : k ≤ j
    · simp [saveToDisk, abortedOn, hj, countWrites]
    · have h' : k ≤ (j + 1) + rest.length := by
        simp only [List.length_cons] at h
        omega
      have := ih (writeAt file off c) (off + c.length) (j + 1) h'
      simp [saveToDisk, abortedOn, hj, countWrites, List.filter] at this ⊢
      constructor
      · exact this.1
      · rw [this.2]
        omega

/-! ## Claims about the resumable downloader -/

/-- C1: the claim says the PendingArtifact is opened without truncation, its
size `R = N` is measured and the range fetch starts at `R`.  Evaluating the
code on a PendingArtifact that already holds the first 3 bytes of the 5-byte
payload: `fs.openSync(path, 'w+')` truncates the file, so the measured size is
0 and the range request is `bytes=0-`, not `bytes=3-` (the whole payload is
re-downloaded and the finished file is still the full payload). -/
theorem resume_requests_offset_zero :
    eagerAcquireLockAndDownload hashLen "5" (some [1, 2, 3]) none
        (serveFull [1, 2, 3, 4, 5]) none
      = (none, some [1, 2, 3, 4, 5], DlOutcome.ok,
          [DlEv.openPending, DlEv.range 0, DlEv.write 0 5,
            DlEv.verify true, DlEv.rename]) ∧
    DlEv.range 3 ∉
      (eagerAcquireLockAndDownload hashLen "5" (some [1, 2, 3]) none
        (serveFull [1, 2, 3, 4, 5]) none).2.2.2 := by
  constructor
  · decide
  · decide

/-- C2: the PendingArtifact is renamed onto `destination` only directly after
the integrity check succeeded, the destination (absent before the call)
exists afterwards iff that rename was executed, and any published content
hashes to `expectedHex`. -/
theorem rename_only_after_verify (hashFn : List Byte → String)
    (expectedHex : String) (pending0 : Option (List Byte))
    (serve : Nat → List (List Byte)) (abortedAt : Option Nat) :
    (DlEv.rename ∈ (eagerAcquireLockAndDownload hashFn expectedHex pending0
        none serve abortedAt).2.2.2 →
      ∃ tr0, (eagerAcquireLockAndDownload hashFn expectedHex pending0 none
        serve abortedAt).2.2.2 = tr0 ++ [DlEv.verify true, DlEv.rename]) ∧
    ((eagerAcquireLockAndDownload hashFn expectedHex pending0 none serve
        abortedAt).2.1.isSome ↔
      DlEv.rename ∈ (eagerAcquireLockAndDownload hashFn expectedHex pending0
        none serve abortedAt).2.2.2) ∧
    (∀ f, (eagerAcquireLockAndDownload hashFn expectedHex pending0 none serve
        abortedAt).2.1 = some f → hashFn f = expectedHex) := by
  have hwr := rename_not_in_saveToDisk [] 0 (serve 0) 0 abortedAt
  unfold eagerAcquireLockAndDownload
  simp only [List.length_nil]
  by_cases hok : (saveToDisk [] 0 (serve 0) 0 abortedAt).2.1 = true
  · by_cases hh :
      hashFn (saveToDisk [] 0 (serve 0) 0 abortedAt).1 = expectedHex
    · simp only [hok, hh, if_true, if_pos]
      refine ⟨fun _ => ⟨DlEv.openPending :: DlEv.range 0 ::
        (saveToDisk [] 0 (serve 0) 0 abortedAt).2.2, by simp⟩, ?_, ?_⟩
      · simp
      · intro f hf
        rw [Option.some_inj] at hf
        rw [← hf]
        exact hh
    · simp only [hok, hh, if_true, if_false, if_neg]
      refine ⟨?_, ?_, ?_⟩
      · intro hmem
        exact absurd hmem (by simp [hwr])
      · simp [hwr]
      · intro f hf
        cases hf
  · simp only [hok, if_neg, Bool.false_eq_true, not_false_iff, if_false]
    refine ⟨?_, ?_, ?_⟩
    · intro hmem
      exact absurd hmem (by simp [hwr])
    · simp [hwr]
    · intro f hf
      cases hf

/-- C2 witness: a successful concrete download, published only after
verification. -/
theorem rename_only_after_verify_witness :
    ∃ tr0, (eagerAcquireLockAndDownload hashLen "5" none none
        (serveFull [1, 2, 3, 4, 5]) none).2.2.2
      = tr0 ++ [DlEv.verify true, DlEv.rename] :=
  (rename_only_after_verify hashLen "5" none
    (serveFull [1, 2, 3, 4, 5]) none).1 (by decide)

/-- C3: when the stream completes (no cancellation) and the digest of the
downloaded bytes does not equal `expectedHex`, the PendingArtifact is deleted,
the call fails with the integrity error, the destination (absent before the
call) is never created, and no rename happens. -/
theorem integrity_mismatch_cleans (hashFn : List Byte → String)
    (expectedHex : String) (pending0 : Option (List Byte))
    (serve : Nat → List (List Byte))
    (hmis : hashFn (saveToDisk [] 0 (serve 0) 0 none).1 ≠ expectedHex) :
    (eagerAcquireLockAndDownload hashFn expectedHex pending0 none serve
        none).1 = none ∧
    (eagerAcquireLockAndDownload hashFn expectedHex pending0 none serve
        none).2.2.1 = DlOutcome.integrityError ∧
    (eagerAcquireLockAndDownload hashFn expectedHex pending0 none serve
        none).2.1 = none ∧
    DlEv.unlinkPending ∈ (eagerAcquireLockAndDownload hashFn expectedHex
        pending0 none serve none).2.2.2 ∧
    DlEv.rename ∉ (eagerAcquireLockAndDownload hashFn expectedHex pending0
        none serve none).2.2.2 := by
  have hwr := rename_not_in_saveToDisk [] 0 (serve 0) 0 none
  have hok := saveToDisk_none_ok [] 0 (serve 0) 0
  unfold eagerAcquireLockAndDownload
  simp only [List.length_nil, hok, hmis, if_true, if_false, if_neg]
  refine ⟨trivial, trivial, trivial, by simp, by simp [hwr]⟩

/-- C3 witness: a 5-byte payload downloaded against a wrong expected digest. -/
theorem integrity_mismatch_cleans_witness :
    (eagerAcquireLockAndDownload hashLen "9" (some [7]) none
        (serveFull [1, 2, 3, 4, 5]) none).1 = none ∧
    (eagerAcquireLockAndDownload hashLen "9" (some [7]) none
        (serveFull [1, 2, 3, 4, 5]) none).2.2.1 = DlOutcome.integrityError ∧
    (eagerAcquireLockAndDownload hashLen "9" (some [7]) none
        (serveFull [1, 2, 3, 4, 5]) none).2.1 = none ∧
    DlEv.unlinkPending ∈ (eagerAcquireLockAndDownload hashLen "9" (some [7])
        none (serveFull [1, 2, 3, 4, 5]) none).2.2.2 ∧
    DlEv.rename ∉ (eagerAcquireLockAndDownload hashLen "9" (some [7]) none
        (serveFull [1, 2, 3, 4, 5]) none).2.2.2 :=
  integrity_mismatch_cleans hashLen "9" (some [7])
    (serveFull [1, 2, 3, 4, 5]) (by decide)

/-- C7: if the lock-compromise signal is observed at stream event `k` (within
the stream: `k` is at most the number of chunks), the downloader writes
exactly the first `k` chunks and then stops, the call fails with the aborted
outcome, the PendingArtifact is kept (not unlinked), and neither a rename nor
any other write to the destination occurs. -/
theorem cancellation_preserves_pending (hashFn : List Byte → String)
    (expectedHex : String) (pending0 dest0 : Option (List Byte))
    (serve : Nat → List (List Byte)) (k : Nat)
    (hk : k ≤ (serve 0).length) :
    (eagerAcquireLockAndDownload hashFn expectedHex pending0 dest0 serve
        (some k)).2.2.1 = DlOutcome.aborted ∧
    (eagerAcquireLockAndDownload hashFn expectedHex pending0 dest0 serve
        (some k)).1.isSome = true ∧
    DlEv.unlinkPending ∉ (eagerAcquireLockAndDownload hashFn expectedHex
        pending0 dest0 serve (some k)).2.2.2 ∧
    DlEv.rename ∉ (eagerAcquireLockAndDownload hashFn expectedHex pending0
        dest0 serve (some k)).2.2.2 ∧
    (eagerAcquireLockAndDownload hashFn expectedHex pending0 dest0 serve
        (some k)).2.1 = dest0 ∧
    countWrites (eagerAcquireLockAndDownload hashFn expectedHex pending0
        dest0 serve (some k)).2.2.2 = k := by
  have habort := saveToDisk_abort (serve 0) [] 0 0 k (by simpa using hk)
  have hwr := rename_not_in_saveToDisk [] 0 (serve 0) 0 (some k)
  have hul := unlink_not_in_saveToDisk [] 0 (serve 0) 0 (some k)
  unfold eagerAcquireLockAndDownload
  simp only [List.length_nil, habort.1, Bool.false_eq_true, if_false]
  refine ⟨trivial, by simp, by simp [hul], by simp [hwr], trivial, ?_⟩
  simpa [countWrites, List.filter] using habort.2

/-- C7 witness: cancellation observed after the first of two chunks. -/
theorem cancellation_preserves_pending_witness :
    (eagerAcquireLockAndDownload hashLen "4" (some [9]) none serveTwo
        (some 1)).2.2.1 = DlOutcome.aborted ∧
    (eagerAcquireLockAndDownload hashLen "4" (some [9]) none serveTwo
        (some 1)).1.isSome = true ∧
    DlEv.unlinkPending ∉ (eagerAcquireLockAndDownload hashLen "4" (some [9])
        none serveTwo (some 1)).2.2.2 ∧
    DlEv.rename ∉ (eagerAcquireLockAndDownload hashLen "4" (some [9]) none
        serveTwo (some 1)).2.2.2 ∧
    (eagerAcquireLockAndDownload hashLen "4" (some [9]) none serveTwo
        (some 1)).2.1 = none ∧
    countWrites (eagerAcquireLockAndDownload hashLen "4" (some [9]) none
        serveTwo (some 1)).2.2.2 = 1 :=
  cancellation_preserves_pending hashLen "4" (some [9]) none serveTwo 1
    (by decide)

/-! ## Claims about the HTTP fetcher -/

theorem chainLen_cons_of_redirect (r : Resp) (rest : List Resp)
    (h : isRedirect r = true) :
    chainLen (r :: rest) = chainLen rest + 1 := by
  simp [chainLen, List.takeWhile, h]

theorem chainLen_cons_of_not_redirect (r : Resp) (rest : List Resp)
    (h : isRedirect r = false) : chainLen (r :: rest) = 0 := by
  simp [chainLen, List.takeWhile, h]

theorem httpsGet_eq_failure_iff (rs : List Resp) (n : Nat) :
    httpsGet rs n = HttpResult.failure ↔ codeFails rs n = true := by
  induction rs generalizing n with
  | nil => simp [httpsGet, codeFails, chainLen]
  | cons r rest ih =>
    cases hs : r.status with
    | none =>
      have hnr : isRedirect r = false := by simp [isRedirect, hs]
      simp [httpsGet, codeFails, chainLen_cons_of_not_redirect r rest hnr,
        hs]
    | some sc =>
      by_cases hred : isRedirect r = true
      · have h3 : 300 ≤ sc ∧ sc < 400 ∧ r.location.isSome = true := by
          have := hred
          simp [isRedirect, hs] at this
          exact ⟨this.1.1, this.1.2, this.2⟩
        rcases Nat.eq_zero_or_pos n with hn | hn
        · subst hn
          have hcond : ¬(300 ≤ sc ∧ sc < 400 ∧ r.location.isSome ∧ (0:Nat) < 0) := by
            simp
          have hfail : httpsGet (r :: rest) 0 = HttpResult.failure := by
            simp only [httpsGet, hs]
            rw [if_neg hcond, if_pos (Or.inr h3.1)]
          have hcf : codeFails (r :: rest) 0 = true := by
            simp [codeFails, chainLen_cons_of_redirect r rest hred]
          simp [hfail, hcf]
        · have hcond : 300 ≤ sc ∧ sc < 400 ∧ r.location.isSome ∧ 0 < n :=
            ⟨h3.1, h3.2.1, h3.2.2, hn⟩
          have hstep : httpsGet (r :: rest) n = httpsGet rest (n - 1) := by
            simp only [httpsGet, hs]
            rw [if_pos hcond]
          have hcf : codeFails (r :: rest) n = codeFails rest (n - 1) := by
            simp only [codeFails, chainLen_cons_of_redirect r rest hred]
            have hlt : n < chainLen rest + 1 ↔ n - 1 < chainLen rest := by
              omega
            by_cases hb : n - 1 < chainLen rest
            · rw [if_pos (hlt.mpr hb), if_pos hb]
            · rw [if_neg (fun hx => hb (hlt.mp hx)), if_neg hb,
                List.getElem?_cons_succ]
          rw [hstep, hcf]
          exact ih (n - 1)
      · have hnr : isRedirect r = false := by
          simpa using hred
        have hcond : ¬(300 ≤ sc ∧ sc < 400 ∧ r.location.isSome ∧ 0 < n) := by
          intro hx
          apply hred
          simp [isRedirect, hs, hx.1, hx.2.1, hx.2.2.1]
        have hcf : codeFails (r :: rest) n =
            (decide (sc < 200) || decide (300 ≤ sc)) := by
          simp [codeFails, chainLen_cons_of_not_redirect r rest hnr, hs]
        rw [hcf]
        by_cases hbad : sc < 200 ∨ 300 ≤ sc
        · have hfail : httpsGet (r :: rest) n = HttpResult.failure := by
            simp only [httpsGet, hs]
            rw [if_neg hcond, if_pos hbad]
          simp [hfail]
          omega
        · have hsucc : httpsGet (r :: rest) n = HttpResult.success sc := by
            simp only [httpsGet, hs]
            rw [if_neg hcond, if_neg hbad]
          simp [hsucc]
          omega

/-- C8 counterexample: a terminal `304` response without a `Location` header.
The code fails (`httpsGet` rejects every non-2xx terminal status), yet none
of the claim's failure conditions holds: the redirect limit (5) is not
exceeded, no transport error occurred, and the final status 304 lies inside
2xx/3xx.  So "fails exactly when the limit is exceeded, the status is outside
2xx/3xx, or on transport errors" is false as stated. -/
theorem redirect_without_location_fails :
    httpsGet [Resp.mk (some 304) none] 5 = HttpResult.failure ∧
    claimFails [Resp.mk (some 304) none] 5 = false := by
  constructor
  · decide
  · decide

/-- C8 (amended): `httpsGet` fails exactly when the redirect limit is
exceeded, a transport-level error occurs (no response, or a response without
a status code), or the terminal response's status is outside 2xx — in
particular a redirect status without a `Location` header is terminal and
fails even though it lies in 3xx.  The byte-range variant sends
`Range: bytes=<startByte>-`, behaves like `httpsGet` otherwise, and both a
200 and a 206 terminal response are successes. -/
theorem httpsGet_failure_characterization (rs : List Resp)
    (n startByte : Nat) :
    (httpsGet rs n = HttpResult.failure ↔ codeFails rs n = true) ∧
    (httpsGetWithRange rs startByte n).1
      = "bytes=" ++ Nat.repr startByte ++ "-" ∧
    (httpsGetWithRange rs startByte n).2 = httpsGet rs n ∧
    httpsGet [Resp.mk (some 200) none] n = HttpResult.success 200 ∧
    httpsGet [Resp.mk (some 206) none] n = HttpResult.success 206 := by
  refine ⟨httpsGet_eq_failure_iff rs n, rfl, rfl, ?_, ?_⟩
  · simp [httpsGet]
  · simp [httpsGet]

/-! ## Claim about the publish ordering -/

/-- C4: the claim says the old release directory is deleted only after the
pointer repoint succeeded, never before.  Evaluating `trySymlinkLatest`
(src/src/httpUtils.ts) at a state whose pointer resolves to a previous binary
different from the new path: the previous release's directory is removed
first, and the symlink is repointed only afterwards — deletion precedes the
repoint. -/
theorem old_dir_removed_before_repoint :
    trySymlinkLatest (some "old/sfw") "new/sfw"
      = [PubEv.resolvePrev (some "old/sfw"), PubEv.removeOldDir "old/sfw",
          PubEv.removeLink, PubEv.repoint "new/sfw"] ∧
    (∃ i j : Nat, i < j ∧
      (trySymlinkLatest (some "old/sfw") "new/sfw")[i]?
        = some (PubEv.removeOldDir "old/sfw") ∧
      (trySymlinkLatest (some "old/sfw") "new/sfw")[j]?
        = some (PubEv.repoint "new/sfw")) := by
  refine ⟨by decide, 1, 3, by omega, by decide, by decide⟩

/-! ## Claims about digest parsing -/

theorem toNat_ofNat_of_valid {n : Nat} (h : n.isValidChar) :
    (Char.ofNat n).toNat = n := by
  rw [Char.ofNat, dif_pos h]; rfl

theorem toLower_eq_colon {c : Char} (h : c.toLower = ':') : c = ':' := by
  by_cases hn : c.toNat ≥ 65 ∧ c.toNat ≤ 90
  · exfalso
    have hl : c.toLower = Char.ofNat (c.toNat + 32) := by
      unfold Char.toLower
      exact if_pos hn
    rw [hl] at h
    have hv : (c.toNat + 32).isValidChar := Or.inl (by omega)
    have h2 := congrArg Char.toNat h
    rw [toNat_ofNat_of_valid hv] at h2
    have h3 : Char.toNat ':' = 58 := by decide
    rw [h3] at h2
    omega
  · have hl : c.toLower = c := by
      unfold Char.toLower
      exact if_neg hn
    rw [hl] at h
    exact h

theorem colon_mem_of_mem_toLowerL (l : List Char) (h : ':' ∈ toLowerL l) :
    ':' ∈ l := by
  unfold toLowerL at h
  obtain ⟨c, hc, he⟩ := List.mem_map.mp h
  rw [toLower_eq_colon he] at hc
  exact hc

theorem mem_of_mem_trimL (l : List Char) (x : Char) (h : x ∈ trimL l) :
    x ∈ l := by
  unfold trimL at h
  rw [List.mem_reverse] at h
  have h1 := (List.dropWhile_suffix Char.isWhitespace).sublist.subset h
  rw [List.mem_reverse] at h1
  exact (List.dropWhile_suffix Char.isWhitespace).sublist.subset h1

theorem splitSep_of_not_mem (sep : Char) (l : List Char) (h : sep ∉ l) :
    splitSep sep l = [l] := by
  induction l with
  | nil => rfl
  | cons c cs ih =>
    have hcs : sep ∉ cs := fun hx => h (List.mem_cons_of_mem c hx)
    have hc : ¬c = sep := fun hx => h (hx ▸ List.mem_cons_self c cs)
    simp [splitSep, hc, ih hcs]

theorem splitSep_ne_nil (sep : Char) (l : List Char) :
    splitSep sep l ≠ [] := by
  cases l with
  | nil => simp [splitSep]
  | cons c cs =>
    simp only [splitSep]
    by_cases hc : c = sep
    · simp [hc]
    · simp only [hc, if_false]
      rcases he : splitSep sep cs with _ | ⟨h, t⟩
      · simp
      · simp

theorem joinSep_splitSep (sep : Char) (l : List Char) :
    joinSep sep (splitSep sep l) = l := by
  induction l with
  | nil => rfl
  | cons c cs ih =>
    simp only [splitSep]
    by_cases hc : c = sep
    · subst hc
      simp only [if_pos rfl]
      rcases he : splitSep c cs with _ | ⟨h, t⟩
      · exact absurd he (splitSep_ne_nil c cs)
      · rw [he] at ih
        simp [joinSep, ih]
    · simp only [hc, if_false]
      rcases he : splitSep sep cs with _ | ⟨h, t⟩
      · exact absurd he (splitSep_ne_nil sep cs)
      · rw [he] at ih
        cases t with
        | nil => simpa [joinSep] using congrArg (c :: ·) ih
        | cons y t2 =>
          simp only [joinSep] at ih ⊢
          rw [← ih]
          simp

theorem joinSep_cons_cons (sep : Char) (a b : List Char)
    (t : List (List Char)) :
    ∃ rest, joinSep sep (a :: b :: t) = a ++ sep :: (b ++ rest) := by
  cases t with
  | nil => exact ⟨[], by simp [joinSep]⟩
  | cons y t2 => exact ⟨sep :: joinSep sep (y :: t2), by simp [joinSep]⟩

/-- C9: if the digest string contains no `':'` separator at all, parsing
fails and `downloadAndVerifyReleaseSync` fails before any download is
attempted; whenever parsing succeeds, the algorithm and hex components are
non-empty and are, in order, the part before the first `':'` and the part
directly after it, of the trimmed, lower-cased digest string. -/
theorem digest_parse_guards (digest : List Char) (destExists : Bool) :
    (':' ∉ digest →
      parseDigest digest = none ∧
      (downloadAndVerifyRelease true digest destExists).1 = false ∧
      DvEv.netDownload ∉ (downloadAndVerifyRelease true digest destExists).2) ∧
    (∀ a h, parseDigest digest = some (a, h) →
      a ≠ [] ∧ h ≠ [] ∧
      ∃ rest, toLowerL (trimL digest) = a ++ ':' :: (h ++ rest)) := by
  constructor
  · intro hnc
    have hnc2 : ':' ∉ toLowerL (trimL digest) := by
      intro hx
      exact hnc (mem_of_mem_trimL digest ':' (colon_mem_of_mem_toLowerL _ hx))
    have hsplit := splitSep_of_not_mem ':' (toLowerL (trimL digest)) hnc2
    have hp : parseDigest digest = none := by
      unfold parseDigest
      rw [hsplit]
    refine ⟨hp, ?_, ?_⟩
    · simp [downloadAndVerifyRelease, hp]
    · simp [downloadAndVerifyRelease, hp, DvEv.mkdirCache]
  · intro a h hp
    unfold parseDigest at hp
    rcases he : splitSep ':' (toLowerL (trimL digest)) with _ | ⟨x, t⟩
    · rw [he] at hp
      cases hp
    · cases t with
      | nil =>
        rw [he] at hp
        cases hp
      | cons y t2 =>
        rw [he] at hp
        have hp2 : (if x = [] ∨ y = []
            then (none : Option (List Char × List Char))
            else some (x, y)) = some (a, h) := hp
        by_cases hne : x = [] ∨ y = []
        · rw [if_pos hne] at hp2
          cases hp2
        · rw [if_neg hne] at hp2
          rw [Option.some_inj, Prod.mk.injEq] at hp2
          obtain ⟨hx, hy⟩ := hp2
          subst hx
          subst hy
          push_neg at hne
          refine ⟨hne.1, hne.2, ?_⟩
          have hj := joinSep_splitSep ':' (toLowerL (trimL digest))
          rw [he] at hj
          obtain ⟨rest, hr⟩ := joinSep_cons_cons ':' x y t2
          exact ⟨rest, by rw [← hj, hr]⟩

/-- C9 witness: the malformed digest string `sha256abc` (no separator) is
rejected and no download event occurs. -/
theorem digest_parse_guards_witness :
    parseDigest "sha256abc".toList = none ∧
    (downloadAndVerifyRelease true "sha256abc".toList false).1 = false ∧
    DvEv.netDownload ∉
      (downloadAndVerifyRelease true "sha256abc".toList false).2 :=
  (digest_parse_guards "sha256abc".toList false).1 (by decide)

/-! ## Claims about the update scheduler -/

/-- C5: the claim says the refresh attempt runs asynchronously without
blocking the returned value.  Evaluating `ensureLatestBinary` with a valid
cached entry and a reached deadline: the deadline is rewritten first
(`setNextCheck` heads the trace) and the cached entry is returned whatever
the attempt's outcome, but the fetch/download attempt is sequenced strictly
before the return event — the source awaits `swallowError(...)`, so the
return is blocked on the attempt's completion. -/
theorem stale_deadline_refresh_blocks :
    (∀ fetchOk downloadOk : Bool,
      (ensureLatestBinary (some "bin") true fetchOk downloadOk "t" "n").1
        = some ("cached", "bin")) ∧
    (∀ fetchOk downloadOk : Bool,
      (ensureLatestBinary (some "bin") true fetchOk downloadOk
        "t" "n").2.head? = some SchedEv.setNextCheck) ∧
    (ensureLatestBinary (some "bin") true true true "t" "n").2
      = [SchedEv.setNextCheck, SchedEv.fetchLatest, SchedEv.downloadPublish,
          SchedEv.ret] ∧
    (∃ i j : Nat, i < j ∧
      (ensureLatestBinary (some "bin") true true true "t" "n").2[i]?
        = some SchedEv.fetchLatest ∧
      (ensureLatestBinary (some "bin") true true true "t" "n").2[j]?
        = some SchedEv.ret) :=
  ⟨fun _ _ => rfl, fun _ _ => rfl, by decide, 1, 3, by omega, by decide,
    by decide⟩

/-- C6: with a valid cached entry and a deadline that has not been reached,
the cached entry is returned immediately and the trace holds no network
event: no release-metadata fetch and no download, only the return. -/
theorem cached_fresh_no_network (bin newTag newBin : String)
    (fetchOk downloadOk : Bool) :
    (ensureLatestBinary (some bin) false fetchOk downloadOk newTag
        newBin).1 = some ("cached", bin) ∧
    (ensureLatestBinary (some bin) false fetchOk downloadOk newTag
        newBin).2 = [SchedEv.ret] ∧
    SchedEv.fetchLatest ∉ (ensureLatestBinary (some bin) false fetchOk
        downloadOk newTag newBin).2 ∧
    SchedEv.downloadPublish ∉ (ensureLatestBinary (some bin) false fetchOk
        downloadOk newTag newBin).2 := by
  refine ⟨rfl, rfl, ?_, ?_⟩
  · intro hmem
    simp only [ensureLatestBinary, Bool.false_eq_true, if_false,
      List.mem_singleton] at hmem
    cases hmem
  · intro hmem
    simp only [ensureLatestBinary, Bool.false_eq_true, if_false,
      List.mem_singleton] at hmem
    cases hmem

/-! ## Claim about the deadline check -/

/-- C10: `shouldCheckForUpdate` returns true exactly when the `next-check`
file is missing or unreadable, its trimmed content does not parse as a date,
or the current time is strictly greater than the parsed timestamp; every
corrupted-state path yields true (forcing a check) instead of an error. -/
theorem deadline_reached_iff (readResult : Option (List Char))
    (dateParse : List Char → Option Int) (now : Int) :
    shouldCheckForUpdate readResult dateParse now = true ↔
      (readResult = none ∨
       (∃ data, readResult = some data ∧ dateParse (trimL data) = none) ∨
       (∃ data t, readResult = some data ∧
         dateParse (trimL data) = some t ∧ t < now)) := by
  cases readResult with
  | none => simp [shouldCheckForUpdate]
  | some data =>
    cases hp : dateParse (trimL data) with
    | none => simp [shouldCheckForUpdate, hp]
    | some t =>
      simp only [shouldCheckForUpdate, hp, decide_eq_true_eq,
        Option.some.injEq, reduceCtorEq, false_or]
      constructor
      · intro h
        exact Or.inr ⟨data, t, rfl, hp, h⟩
      · rintro (⟨d, hd, hpd⟩ | ⟨d, t2, hd, hpd, hlt⟩)
        · rw [← hd] at hpd
          rw [hp] at hpd
          cases hpd
        · rw [← hd] at hpd
          rw [hp, Option.some_inj] at hpd
          rw [hpd]
          exact hlt

end SfwInstaller
